import Mathlib

/-!
Verification of the micro-frontend detection and interaction-mapping engine
(`src/core/interaction-mapper.ts` and the MFE-detector module of the same
repository).  The TypeScript source is shallowly embedded: strings are Lean
`String`s, JavaScript arrays are `List`s, the insertion-ordered `Map` /
`Record` containers are association lists in first-insertion order, and DOM
trees (supplied externally via jsdom in the source) are modelled by an
explicit `DomNode` inductive.  JavaScript string helpers (`toLowerCase`,
`trim`, `includes`) are modelled by executable character-list functions.
-/

/-! ## JavaScript string primitives -/

/-- Model of JavaScript `String.prototype.toLowerCase` (ASCII-accurate,
which is all the source relies on). -/
def lowerS (s : String) : String := ⟨s.data.map Char.toLower⟩

/-- Characters stripped by JavaScript `String.prototype.trim` (the ASCII
whitespace subset, which is all the source's inputs contain). -/
def isWSChar (c : Char) : Bool :=
  c = ' ' || c = '\t' || c = '\n' || c = '\r' || c = '\x0b' || c = '\x0c'

/-- Model of JavaScript `String.prototype.trim`. -/
def trimS (s : String) : String :=
  ⟨((s.data.dropWhile isWSChar).reverse.dropWhile isWSChar).reverse⟩

/-- Helper for `jsIncludes`: does `sub` occur as a contiguous sublist? -/
def hasSubAux (sub : List Char) : List Char → Bool
  | [] => sub.isEmpty
  | c :: t => sub.isPrefixOf (c :: t) || hasSubAux sub t

/-- Model of JavaScript `String.prototype.includes` (substring test;
`s.includes ""` is `true`, as in JavaScript). -/
def jsIncludes (s sub : String) : Bool := hasSubAux sub.data s.data

theorem lowerS_ne_empty (s : String) (h : s ≠ "") : lowerS s ≠ "" := by
  intro hc
  apply h
  unfold lowerS at hc
  cases s with
  | mk data =>
    cases data with
    | nil => rfl
    | cons c t => simp [String.ext_iff] at hc

/-! ## URL model

The source calls Node's WHATWG `new URL(...)` parser.  That parser is an
external library; it is modelled here for the subset of URLs the engine
manipulates: `scheme://host[:port][/path…]` with an alphanumeric scheme and
a numeric port.  The model lowercases scheme and hostname, drops the
default ports 80/443 of http/https, and rejects (returns `none`, i.e. the
constructor throws) strings without a valid `scheme://host` shape, exactly
as the caller's `try`/`catch` expects. -/

structure UrlParts where
  protocol : String
  hostname : String
  port : String
deriving DecidableEq, Repr

/-- `host` of a parsed URL: `hostname[:port]`. -/
def UrlParts.host (u : UrlParts) : String :=
  if u.port = "" then u.hostname else u.hostname ++ ":" ++ u.port

/-- Split a character list at the first occurrence of `"://"`. -/
def splitSchemeAux (acc : List Char) : List Char → Option (List Char × List Char)
  | [] => none
  | c :: t =>
    if [':', '/', '/'].isPrefixOf (c :: t) then some (acc.reverse, t.drop 2)
    else splitSchemeAux (c :: acc) t

def isSchemeChar (c : Char) : Bool := c.isAlphanum || c = '+' || c = '-' || c = '.'

def digitsToNat (l : List Char) : Nat :=
  l.foldl (fun n c => n * 10 + (c.toNat - 48)) 0

/-- Model of the WHATWG URL parser (Node `new URL`) restricted to the
`scheme://host[:port]…` shapes this engine feeds it. -/
def parseUrl (s : String) : Option UrlParts :=
  match splitSchemeAux [] s.data with
  | none => none
  | some (scheme, rest) =>
    if scheme.isEmpty then none
    else if !(scheme.headD 'a').isAlpha then none
    else if !scheme.all isSchemeChar then none
    else
      let hostPart := rest.takeWhile (fun c => c ≠ '/' && c ≠ '?' && c ≠ '#')
      if hostPart.isEmpty then none
      else
        let schemeL := lowerS ⟨scheme⟩
        let hostname := hostPart.takeWhile (fun c => c ≠ ':')
        let portPart := (hostPart.dropWhile (fun c => c ≠ ':')).drop 1
        if hostname.isEmpty then none
        else if (hostPart.dropWhile (fun c => c ≠ ':')).isEmpty then
          -- no colon: no port
          some ⟨schemeL ++ ":", lowerS ⟨hostname⟩, ""⟩
        else if portPart.isEmpty then
          -- trailing colon with empty port
          some ⟨schemeL ++ ":", lowerS ⟨hostname⟩, ""⟩
        else if !portPart.all Char.isDigit then none
        else if digitsToNat portPart > 65535 then none
        else
          let portS : String := ⟨portPart⟩
          let portS :=
            if (schemeL = "http" && portS = "80") || (schemeL = "https" && portS = "443")
            then "" else portS
          some ⟨schemeL ++ ":", lowerS ⟨hostname⟩, portS⟩

/-- The regex fallback of `getDomain`: JavaScript
`urlString.match(/^(https?:\/\/[^\/]+)/)`. -/
def regexDomainPrefix (s : String) : Option String :=
  let tryScheme : String → Option String := fun pre =>
    if pre.data.isPrefixOf s.data then
      let rest := s.data.drop pre.data.length
      let hostRun := rest.takeWhile (fun c => c ≠ '/')
      if hostRun.isEmpty then none else some (pre ++ ⟨hostRun⟩)
    else none
  match tryScheme "http://" with
  | some m => some m
  | none => tryScheme "https://"

/-- `getDomain` from the source: origin via `new URL`, regex fallback,
finally the raw string. -/
def getDomain (urlString : String) : String :=
  match parseUrl urlString with
  | some url => url.protocol ++ "//" ++ url.host
  | none =>
    match regexDomainPrefix urlString with
    | some m => m
    | none => urlString

/-! ## Data model of the detector -/

structure PageSnapshot where
  title : String
  url : String
  dom : String
  scriptUrls : List String
deriving DecidableEq, Repr

structure MfeInfo where
  name : String
  scripts : List String
deriving DecidableEq, Repr

structure MfeAnalysis where
  shell : String
  mfes : List MfeInfo
deriving DecidableEq, Repr

structure DomainGroup where
  domain : String
  scripts : List String
  hasRemoteEntry : Bool
  hasWebpackSharing : Bool
deriving DecidableEq, Repr

/-- `isModuleFederationScript` from the source. -/
def isModuleFederationScript (scriptUrl : String) : Bool :=
  let urlLower := lowerS scriptUrl
  jsIncludes urlLower "remoteentry.js" ||
    (jsIncludes urlLower "__webpack_init_sharing__" || jsIncludes urlLower "webpack_sharing")

/-- Pushing one script url into its (already existing) domain group: the body
of the `for` loop of `groupScriptsByDomain` after the group is present. -/
def updateGroup (g : DomainGroup) (scriptUrl : String) : DomainGroup :=
  let g := { g with scripts := g.scripts ++ [scriptUrl] }
  if isModuleFederationScript scriptUrl then
    let g :=
      if jsIncludes (lowerS scriptUrl) "remoteentry.js" then { g with hasRemoteEntry := true }
      else g
    if jsIncludes (lowerS scriptUrl) "webpack_sharing" ||
        jsIncludes (lowerS scriptUrl) "__webpack_init_sharing__" then
      { g with hasWebpackSharing := true }
    else g
  else g

/-- One iteration of the `groupScriptsByDomain` loop (the JavaScript `Map`
is an association list in key-insertion order). -/
def addScript (groups : List DomainGroup) (scriptUrl : String) : List DomainGroup :=
  let domain := getDomain scriptUrl
  if groups.any (fun g => g.domain == domain) then
    groups.map (fun g => if g.domain == domain then updateGroup g scriptUrl else g)
  else
    groups ++ [updateGroup ⟨domain, [], false, false⟩ scriptUrl]

/-- `groupScriptsByDomain` from the source. -/
def groupScriptsByDomain (scriptUrls : List String) : List DomainGroup :=
  scriptUrls.foldl addScript []

/-- Body of the max-scripts fallback loop of `determineShell`. -/
def shellFoldStep (acc : Nat × String) (g : DomainGroup) : Nat × String :=
  if g.scripts.length > acc.1 then (g.scripts.length, g.domain) else acc

/-- The part of `determineShell` after its first early `return`: the scan
for the first domain without `remoteEntry`, then the most-scripts fallback
(accumulator seeded with `0` and the page's own domain, as in the source). -/
def determineShellRest (domainGroups : List DomainGroup) (pageDomain : String) : String :=
  match domainGroups.find? (fun g => !g.hasRemoteEntry) with
  | some g => g.domain
  | none => (domainGroups.foldl shellFoldStep (0, pageDomain)).2

/-- `determineShell` from the source. -/
def determineShell (domainGroups : List DomainGroup) (pageUrl : String) : String :=
  let pageDomain := getDomain pageUrl
  match domainGroups.find? (fun g => g.domain == pageDomain) with
  | some g =>
    if !g.hasRemoteEntry then pageDomain
    else determineShellRest domainGroups pageDomain
  | none => determineShellRest domainGroups pageDomain

/-- `extractMfeName` from the source. -/
def extractMfeName (domain : String) : String :=
  match parseUrl domain with
  | some url =>
    if url.hostname = "localhost" && url.port ≠ "" then "mfe-" ++ url.port
    else ⟨url.hostname.data.map (fun c => if c = '.' then '-' else c)⟩
  | none =>
    ⟨domain.data.map (fun c => if c.isAlphanum || c = '-' then c else '-')⟩

/-- `detectMfe` from the source (the loop that pushes every non-shell
domain carrying a module-federation flag). -/
def detectMfe (snapshot : PageSnapshot) : MfeAnalysis :=
  let domainGroups := groupScriptsByDomain snapshot.scriptUrls
  let shell := determineShell domainGroups snapshot.url
  let mfes := domainGroups.filterMap (fun g =>
    if g.domain == shell then none
    else if g.hasRemoteEntry || g.hasWebpackSharing then
      some ⟨extractMfeName g.domain, g.scripts⟩
    else none)
  ⟨shell, mfes⟩

/-! ## Order-preserving key sequences -/

/-- The key sequence of an insertion-ordered map built from `l`:
first-seen order with duplicates dropped. -/
def firstSeen (l : List String) : List String :=
  l.foldl (fun acc d => if acc.contains d then acc else acc ++ [d]) []

theorem firstSeen_step (acc : List String) (d : String) :
    (if acc.contains d then acc else acc ++ [d]) =
      if d ∈ acc then acc else acc ++ [d] := by
  by_cases h : d ∈ acc <;> simp [h]

theorem mem_firstSeenAux (l : List String) :
    ∀ (acc : List String) (y : String),
      (y ∈ l.foldl (fun acc d => if acc.contains d then acc else acc ++ [d]) acc ↔
        y ∈ acc ∨ y ∈ l) := by
  induction l with
  | nil => intro acc y; simp
  | cons d t ih =>
    intro acc y
    simp only [List.foldl_cons]
    rw [firstSeen_step]
    by_cases hd : d ∈ acc
    · simp only [hd, if_true, ih]
      constructor
      · rintro (h | h)
        · exact Or.inl h
        · exact Or.inr (List.mem_cons_of_mem _ h)
      · rintro (h | h)
        · exact Or.inl h
        · rcases List.mem_cons.mp h with h | h
          · exact Or.inl (h ▸ hd)
          · exact Or.inr h
    · simp only [hd, if_false, ih, List.mem_append, List.mem_singleton, List.mem_cons]
      tauto

theorem mem_firstSeen (l : List String) (y : String) : y ∈ firstSeen l ↔ y ∈ l := by
  unfold firstSeen; rw [mem_firstSeenAux]; simp

theorem firstSeen_nodup_aux (l : List String) :
    ∀ acc : List String, acc.Nodup →
      (l.foldl (fun acc d => if acc.contains d then acc else acc ++ [d]) acc).Nodup := by
  induction l with
  | nil => intro acc h; simpa using h
  | cons d t ih =>
    intro acc h
    simp only [List.foldl_cons]
    rw [firstSeen_step]
    by_cases hd : d ∈ acc
    · simp only [hd, if_true]; exact ih acc h
    · simp only [hd, if_false]
      exact ih _ (by simp [List.nodup_append, h, hd])

theorem firstSeen_nodup (l : List String) : (firstSeen l).Nodup :=
  firstSeen_nodup_aux l [] List.nodup_nil

theorem firstSeen_concat (l : List String) (x : String) :
    firstSeen (l ++ [x]) =
      if x ∈ firstSeen l then firstSeen l else firstSeen l ++ [x] := by
  unfold firstSeen
  rw [List.foldl_append]
  simp only [List.foldl_cons, List.foldl_nil]
  exact firstSeen_step _ _

/-! ## Structural invariants of the grouper -/

theorem updateGroup_domain (g : DomainGroup) (u : String) :
    (updateGroup g u).domain = g.domain := by
  cases ha : jsIncludes (lowerS u) "remoteentry.js" <;>
    cases hb : jsIncludes (lowerS u) "__webpack_init_sharing__" <;>
      cases hc : jsIncludes (lowerS u) "webpack_sharing" <;>
        simp [updateGroup, isModuleFederationScript, ha, hb, hc]

theorem updateGroup_scripts (g : DomainGroup) (u : String) :
    (updateGroup g u).scripts = g.scripts ++ [u] := by
  cases ha : jsIncludes (lowerS u) "remoteentry.js" <;>
    cases hb : jsIncludes (lowerS u) "__webpack_init_sharing__" <;>
      cases hc : jsIncludes (lowerS u) "webpack_sharing" <;>
        simp [updateGroup, isModuleFederationScript, ha, hb, hc]

theorem updateGroup_hasRE (g : DomainGroup) (u : String) :
    (updateGroup g u).hasRemoteEntry =
      (g.hasRemoteEntry || jsIncludes (lowerS u) "remoteentry.js") := by
  cases ha : jsIncludes (lowerS u) "remoteentry.js" <;>
    cases hb : jsIncludes (lowerS u) "__webpack_init_sharing__" <;>
      cases hc : jsIncludes (lowerS u) "webpack_sharing" <;>
        simp [updateGroup, isModuleFederationScript, ha, hb, hc]

theorem updateGroup_hasWS (g : DomainGroup) (u : String) :
    (updateGroup g u).hasWebpackSharing =
      (g.hasWebpackSharing ||
        (jsIncludes (lowerS u) "webpack_sharing" ||
          jsIncludes (lowerS u) "__webpack_init_sharing__")) := by
  cases ha : jsIncludes (lowerS u) "remoteentry.js" <;>
    cases hb : jsIncludes (lowerS u) "__webpack_init_sharing__" <;>
      cases hc : jsIncludes (lowerS u) "webpack_sharing" <;>
        simp [updateGroup, isModuleFederationScript, ha, hb, hc]

/-- The per-script predicate that sets `hasRemoteEntry`. -/
def flagsRE (u : String) : Bool := jsIncludes (lowerS u) "remoteentry.js"

/-- The per-script predicate that sets `hasWebpackSharing`. -/
def flagsWS (u : String) : Bool :=
  jsIncludes (lowerS u) "webpack_sharing" || jsIncludes (lowerS u) "__webpack_init_sharing__"

/-- Everything the later theorems need about the state of the grouping
loop after consuming `urls`. -/
def groupsInv (urls : List String) (gs : List DomainGroup) : Prop :=
  gs.map (fun g => g.domain) = firstSeen (urls.map getDomain) ∧
  ∀ g ∈ gs,
    g.scripts = urls.filter (fun u => getDomain u == g.domain) ∧
    g.hasRemoteEntry = g.scripts.any flagsRE ∧
    g.hasWebpackSharing = g.scripts.any flagsWS

theorem addScript_inv (u₀ : List String) (gs : List DomainGroup) (u : String)
    (h : groupsInv u₀ gs) : groupsInv (u₀ ++ [u]) (addScript gs u) := by
  obtain ⟨hdom, hmem⟩ := h
  unfold addScript
  cases hex : gs.any (fun g => g.domain == getDomain u) with
  | true =>
    rw [if_pos hex]
    have hexm : getDomain u ∈ firstSeen (u₀.map getDomain) := by
      rw [← hdom]
      rcases List.any_eq_true.mp hex with ⟨g, hg, hgd⟩
      exact List.mem_map.mpr ⟨g, hg, by simpa using hgd.symm⟩
    constructor
    · rw [List.map_map]
      have hcomp : ((fun g : DomainGroup => g.domain) ∘
          fun g => if g.domain == getDomain u then updateGroup g u else g) =
          fun g : DomainGroup => g.domain := by
        funext g
        by_cases hgd : g.domain = getDomain u <;> simp [hgd, updateGroup_domain]
      rw [hcomp, hdom, List.map_append]
      simp only [List.map_cons, List.map_nil]
      rw [firstSeen_concat, if_pos hexm]
    · intro g' hg'
      rcases List.mem_map.mp hg' with ⟨g, hg, hgeq⟩
      obtain ⟨hs, hre, hws⟩ := hmem g hg
      cases hgd : g.domain == getDomain u with
      | true =>
        rw [if_pos hgd] at hgeq
        subst hgeq
        have hdq : g.domain = getDomain u := by simpa using hgd
        refine ⟨?_, ?_, ?_⟩
        · simp only [updateGroup_scripts, updateGroup_domain]
          rw [hs, List.filter_append, hdq]
          simp
        · simp only [updateGroup_hasRE, updateGroup_scripts]
          rw [hre, List.any_append]
          simp [flagsRE]
        · simp only [updateGroup_hasWS, updateGroup_scripts]
          rw [hws, List.any_append]
          simp [flagsWS]
      | false =>
        rw [if_neg (by simp [hgd])] at hgeq
        subst hgeq
        refine ⟨?_, hre, hws⟩
        rw [hs, List.filter_append]
        have hne : (getDomain u == g.domain) = false := by
          simp only [beq_eq_false_iff_ne, ne_eq] at hgd ⊢
          exact fun hc => hgd hc.symm
        simp [hne]
  | false =>
    rw [if_neg (by simp [hex])]
    have hnem : getDomain u ∉ firstSeen (u₀.map getDomain) := by
      rw [← hdom]
      intro hc
      rcases List.mem_map.mp hc with ⟨g, hg, hgd⟩
      have : gs.any (fun g => g.domain == getDomain u) = true :=
        List.any_eq_true.mpr ⟨g, hg, by simp [hgd]⟩
      rw [hex] at this
      exact Bool.noConfusion this
    constructor
    · rw [List.map_append, hdom, List.map_append]
      simp only [List.map_cons, List.map_nil]
      rw [firstSeen_concat, if_neg hnem]
      simp [updateGroup_domain]
    · intro g' hg'
      rcases List.mem_append.mp hg' with hg | hg
      · obtain ⟨hs, hre, hws⟩ := hmem g' hg
        refine ⟨?_, hre, hws⟩
        rw [hs, List.filter_append]
        have hgd : g'.domain ≠ getDomain u := by
          intro hc
          apply hnem
          rw [← hdom]
          exact hc ▸ List.mem_map.mpr ⟨g', hg, rfl⟩
        have hne : (getDomain u == g'.domain) = false := by
          simp only [beq_eq_false_iff_ne, ne_eq]
          exact fun hc => hgd hc.symm
        simp [hne]
      · have hg'' : g' = updateGroup ⟨getDomain u, [], false, false⟩ u := by
          simpa using hg
        subst hg''
        have hfilt : u₀.filter (fun u' => getDomain u' == getDomain u) = [] := by
          rw [List.filter_eq_nil_iff]
          intro a ha hc
          apply hnem
          rw [mem_firstSeen]
          have hca : getDomain a = getDomain u := by simpa using hc
          exact hca ▸ List.mem_map.mpr ⟨a, ha, rfl⟩
        refine ⟨?_, ?_, ?_⟩
        · simp only [updateGroup_scripts, updateGroup_domain]
          rw [List.filter_append]
          simp [hfilt]
        · simp only [updateGroup_hasRE, updateGroup_scripts]
          simp [flagsRE]
        · simp only [updateGroup_hasWS, updateGroup_scripts]
          simp [flagsWS]

theorem groupScripts_inv_aux (us : List String) :
    ∀ (u₀ : List String) (gs : List DomainGroup), groupsInv u₀ gs →
      groupsInv (u₀ ++ us) (us.foldl addScript gs) := by
  induction us with
  | nil => intro u₀ gs h; simpa using h
  | cons u t ih =>
    intro u₀ gs h
    have h1 := addScript_inv u₀ gs u h
    have h2 := ih (u₀ ++ [u]) (addScript gs u) h1
    simpa using h2

theorem groupScripts_inv (urls : List String) :
    groupsInv urls (groupScriptsByDomain urls) := by
  have h := groupScripts_inv_aux urls [] [] (by constructor <;> simp [firstSeen])
  simpa [groupScriptsByDomain] using h

/-! ## Spec rendering of shell determination (claim C1) -/

/-- Largest script count among the grouped domains. -/
def maxScriptCount : List DomainGroup → Nat
  | [] => 0
  | g :: gs => Nat.max g.scripts.length (maxScriptCount gs)

/-- Shell determination as the claim words it: (1) the page's own origin if
it is grouped and lacks `hasRemoteEntry`; (2) else the first domain in
first-seen order lacking `hasRemoteEntry`; (3) else the first domain
attaining the largest script count, and the page's own origin if no
domains exist at all. -/
def determineShellSpec (domainGroups : List DomainGroup) (pageUrl : String) : String :=
  if domainGroups.any (fun g => g.domain == getDomain pageUrl && !g.hasRemoteEntry) then
    getDomain pageUrl
  else
    match domainGroups.find? (fun g => !g.hasRemoteEntry) with
    | some g => g.domain
    | none =>
      match domainGroups.find? (fun g => g.scripts.length == maxScriptCount domainGroups) with
      | some g => g.domain
      | none => getDomain pageUrl

theorem le_maxScriptCount {g : DomainGroup} {gs : List DomainGroup} (h : g ∈ gs) :
    g.scripts.length ≤ maxScriptCount gs := by
  induction gs with
  | nil => cases h
  | cons g' t ih =>
    rcases List.mem_cons.mp h with h | h
    · subst h; exact Nat.le_max_left _ _
    · exact le_trans (ih h) (Nat.le_max_right _ _)

theorem shellFold_le (gs : List DomainGroup) :
    ∀ (m0 : Nat) (d0 : String), (∀ g ∈ gs, g.scripts.length ≤ m0) →
      gs.foldl shellFoldStep (m0, d0) = (m0, d0) := by
  induction gs with
  | nil => intro m0 d0 _; rfl
  | cons g t ih =>
    intro m0 d0 h
    have hg : g.scripts.length ≤ m0 := h g (List.mem_cons_self _ _)
    simp only [List.foldl_cons, shellFoldStep, gt_iff_lt, Nat.not_lt.mpr hg, if_false]
    exact ih m0 d0 (fun g' hg' => h g' (List.mem_cons_of_mem _ hg'))

theorem shellFold_gt (gs : List DomainGroup) :
    ∀ (m0 : Nat) (d0 : String), m0 < maxScriptCount gs →
      ∃ gm, gs.find? (fun g => g.scripts.length == maxScriptCount gs) = some gm ∧
        (gs.foldl shellFoldStep (m0, d0)).2 = gm.domain := by
  induction gs with
  | nil => intro m0 d0 h; simp [maxScriptCount] at h
  | cons g t ih =>
    intro m0 d0 h
    simp only [List.foldl_cons]
    by_cases hlen : m0 < g.scripts.length
    · by_cases hmax : maxScriptCount t ≤ g.scripts.length
      · have hM : maxScriptCount (g :: t) = g.scripts.length := by
          simp [maxScriptCount, Nat.max_eq_left hmax]
        refine ⟨g, ?_, ?_⟩
        · rw [hM, List.find?_cons_of_pos _ (by simp)]
        · simp only [shellFoldStep, gt_iff_lt, hlen, if_true]
          rw [shellFold_le t _ _ (fun g' hg' => le_trans (le_maxScriptCount hg') hmax)]
      · push_neg at hmax
        have hM : maxScriptCount (g :: t) = maxScriptCount t := by
          simp [maxScriptCount, Nat.max_eq_right (Nat.le_of_lt hmax)]
        rcases ih g.scripts.length g.domain hmax with ⟨gm, hfind, hres⟩
        refine ⟨gm, ?_, ?_⟩
        · rw [hM, List.find?_cons_of_neg _ (by simp [Nat.ne_of_lt hmax])]
          exact hfind
        · simp only [shellFoldStep, gt_iff_lt, hlen, if_true]
          exact hres
    · push_neg at hlen
      have hmax : m0 < maxScriptCount t := by
        rcases lt_max_iff.mp (by simpa [maxScriptCount] using h) with h' | h'
        · exact absurd h' (Nat.not_lt.mpr hlen)
        · exact h'
      have hM : maxScriptCount (g :: t) = maxScriptCount t := by
        simp [maxScriptCount, Nat.max_eq_right (le_trans hlen (Nat.le_of_lt hmax))]
      rcases ih m0 d0 hmax with ⟨gm, hfind, hres⟩
      refine ⟨gm, ?_, ?_⟩
      · rw [hM, List.find?_cons_of_neg _ (by
          simp only [beq_iff_eq]
          exact Nat.ne_of_lt (Nat.lt_of_le_of_lt hlen hmax))]
        exact hfind
      · simp only [shellFoldStep, gt_iff_lt, Nat.not_lt.mpr hlen, if_false]
        exact hres

theorem shellRestSpec_eq (gs : List DomainGroup) (pd : String)
    (hne : ∀ g ∈ gs, g.scripts ≠ []) :
    determineShellRest gs pd =
      (match gs.find? (fun g => !g.hasRemoteEntry) with
        | some g => g.domain
        | none =>
          match gs.find? (fun g => g.scripts.length == maxScriptCount gs) with
          | some g => g.domain
          | none => pd) := by
  unfold determineShellRest
  cases h2 : gs.find? (fun g => !g.hasRemoteEntry) with
  | some g => rfl
  | none =>
    cases gs with
    | nil => rfl
    | cons g t =>
      have h0 : 0 < maxScriptCount (g :: t) :=
        Nat.lt_of_lt_of_le (List.length_pos.mpr (hne g (List.mem_cons_self _ _)))
          (le_maxScriptCount (List.mem_cons_self _ _))
      rcases shellFold_gt (g :: t) 0 pd h0 with ⟨gm, hfind, hres⟩
      rw [hres, hfind]

/-- Under domain uniqueness and non-empty script lists — both guaranteed
for grouper output — the implementation agrees with the claim's rules. -/
theorem determineShell_eq_spec (gs : List DomainGroup) (pageUrl : String)
    (hnd : (gs.map (fun g => g.domain)).Nodup)
    (hne : ∀ g ∈ gs, g.scripts ≠ []) :
    determineShell gs pageUrl = determineShellSpec gs pageUrl := by
  have hrest := shellRestSpec_eq gs (getDomain pageUrl) hne
  unfold determineShell determineShellSpec
  cases h1 : gs.find? (fun g => g.domain == getDomain pageUrl) with
  | some g =>
    have hg : g ∈ gs := List.mem_of_find?_eq_some h1
    have hgd : g.domain = getDomain pageUrl := by simpa using List.find?_some h1
    cases hre : g.hasRemoteEntry with
    | false =>
      have hany : gs.any (fun g => g.domain == getDomain pageUrl && !g.hasRemoteEntry) = true :=
        List.any_eq_true.mpr ⟨g, hg, by simp [hgd, hre]⟩
      simp [h1, hany, hre]
    | true =>
      have hany : gs.any (fun g => g.domain == getDomain pageUrl && !g.hasRemoteEntry) = false := by
        rw [Bool.eq_false_iff]
        intro hc
        rcases List.any_eq_true.mp hc with ⟨g', hg', hp⟩
        have hp' : g'.domain = getDomain pageUrl ∧ g'.hasRemoteEntry = false := by
          simpa using hp
        have heq : g' = g := List.inj_on_of_nodup_map hnd hg' hg (hp'.1.trans hgd.symm)
        rw [heq, hre] at hp'
        exact Bool.noConfusion hp'.2
      simp [h1, hany, hre, hrest]
  | none =>
    have hany : gs.any (fun g => g.domain == getDomain pageUrl && !g.hasRemoteEntry) = false := by
      rw [Bool.eq_false_iff]
      intro hc
      rcases List.any_eq_true.mp hc with ⟨g', hg', hp⟩
      have hfind := List.find?_eq_none.mp h1 g' hg'
      simp at hp hfind
      exact hfind hp.1
    simp [h1, hany, hrest]

theorem groupDomains_nodup (urls : List String) :
    ((groupScriptsByDomain urls).map (fun g => g.domain)).Nodup := by
  rw [(groupScripts_inv urls).1]
  exact firstSeen_nodup _

theorem groupScripts_ne_nil (urls : List String) :
    ∀ g ∈ groupScriptsByDomain urls, g.scripts ≠ [] := by
  intro g hg
  obtain ⟨hs, h2, h3⟩ := (groupScripts_inv urls).2 g hg
  have hd : g.domain ∈ (groupScriptsByDomain urls).map (fun g => g.domain) :=
    List.mem_map.mpr ⟨g, hg, rfl⟩
  rw [(groupScripts_inv urls).1, mem_firstSeen] at hd
  rcases List.mem_map.mp hd with ⟨u, hu, hud⟩
  intro hnil
  have hmemu : u ∈ g.scripts := by
    rw [hs]
    exact List.mem_filter.mpr ⟨hu, by simp [hud]⟩
  rw [hnil] at hmemu
  cases hmemu

/-- C1: for every `PageSnapshot`, shell determination over the grouped
domains follows the claim's three ordered rules — (1) the page's own
origin when grouped without `hasRemoteEntry`, (2) else the first domain
in first-seen order without `hasRemoteEntry`, (3) else the domain with the
largest script count with ties broken by first-seen order, defaulting to
the page's own origin when no domains exist. -/
theorem determineShell_follows_claimed_rules (s : PageSnapshot) :
    determineShell (groupScriptsByDomain s.scriptUrls) s.url =
      determineShellSpec (groupScriptsByDomain s.scriptUrls) s.url :=
  determineShell_eq_spec _ _ (groupDomains_nodup _) (groupScripts_ne_nil _)

/-- C9: the grouper keys origins in first-seen order; a group's scripts
are exactly the input urls of its origin in discovery order; the flags are
set exactly when some script of the origin contains, case-insensitively,
`remoteentry.js` respectively `webpack_sharing`/`__webpack_init_sharing__`;
and two urls sharing scheme and host land in the same group. -/
theorem groupScriptsByDomain_properties (urls : List String) :
    ((groupScriptsByDomain urls).map (fun g => g.domain) = firstSeen (urls.map getDomain)) ∧
    (∀ g ∈ groupScriptsByDomain urls,
      g.scripts = urls.filter (fun u => getDomain u == g.domain) ∧
      g.hasRemoteEntry = g.scripts.any (fun u => jsIncludes (lowerS u) "remoteentry.js") ∧
      g.hasWebpackSharing = g.scripts.any (fun u =>
        jsIncludes (lowerS u) "webpack_sharing" ||
          jsIncludes (lowerS u) "__webpack_init_sharing__")) ∧
    (∀ u1 ∈ urls, ∀ u2 ∈ urls, ∀ p1 p2 : UrlParts,
      parseUrl u1 = some p1 → parseUrl u2 = some p2 →
      p1.protocol = p2.protocol → p1.host = p2.host →
      ∃ g ∈ groupScriptsByDomain urls, u1 ∈ g.scripts ∧ u2 ∈ g.scripts) := by
  obtain ⟨hdom, hmem⟩ := groupScripts_inv urls
  refine ⟨hdom, hmem, ?_⟩
  intro u1 hu1 u2 hu2 p1 p2 hp1 hp2 hproto hhost
  have hd12 : getDomain u1 = getDomain u2 := by
    simp only [getDomain, hp1, hp2]
    rw [hproto, hhost]
  have hd : getDomain u1 ∈ (groupScriptsByDomain urls).map (fun g => g.domain) := by
    rw [hdom, mem_firstSeen]
    exact List.mem_map.mpr ⟨u1, hu1, rfl⟩
  rcases List.mem_map.mp hd with ⟨g, hg, hgd⟩
  obtain ⟨hs, h2, h3⟩ := hmem g hg
  refine ⟨g, hg, ?_, ?_⟩
  · rw [hs]
    exact List.mem_filter.mpr ⟨hu1, by simp [hgd]⟩
  · rw [hs]
    exact List.mem_filter.mpr ⟨hu2, by simp [← hd12, hgd]⟩

theorem groupScriptsByDomain_properties_witness :
    ∃ g ∈ groupScriptsByDomain ["http://a.com/REMOTEENTRY.JS", "http://A.com/x.js"],
      "http://a.com/REMOTEENTRY.JS" ∈ g.scripts ∧ "http://A.com/x.js" ∈ g.scripts :=
  (groupScriptsByDomain_properties _).2.2
    "http://a.com/REMOTEENTRY.JS" (by decide)
    "http://A.com/x.js" (by decide)
    ⟨"http:", "a.com", ""⟩ ⟨"http:", "a.com", ""⟩
    (by decide) (by decide) rfl rfl

/-- C5: the analysis lists as `MfeInfo` exactly the non-shell origins whose
group carries `hasRemoteEntry` or `hasWebpackSharing`; in particular the
shell origin never appears and unflagged origins are silently excluded. -/
theorem detectMfe_remote_identification (s : PageSnapshot) :
    (∀ g ∈ groupScriptsByDomain s.scriptUrls,
      g.domain ≠ (detectMfe s).shell →
      (g.hasRemoteEntry || g.hasWebpackSharing) = true →
      (⟨extractMfeName g.domain, g.scripts⟩ : MfeInfo) ∈ (detectMfe s).mfes) ∧
    (∀ m ∈ (detectMfe s).mfes,
      ∃ g ∈ groupScriptsByDomain s.scriptUrls,
        m = ⟨extractMfeName g.domain, g.scripts⟩ ∧
        g.domain ≠ (detectMfe s).shell ∧
        (g.hasRemoteEntry || g.hasWebpackSharing) = true) := by
  have hm : (detectMfe s).mfes = (groupScriptsByDomain s.scriptUrls).filterMap (fun g =>
      if g.domain == (detectMfe s).shell then none
      else if g.hasRemoteEntry || g.hasWebpackSharing then
        some ⟨extractMfeName g.domain, g.scripts⟩
      else none) := rfl
  constructor
  · intro g hg hne hflag
    rw [hm]
    apply List.mem_filterMap.mpr
    refine ⟨g, hg, ?_⟩
    have hbeq : (g.domain == (detectMfe s).shell) = false := by simp [hne]
    rw [if_neg (by simp [hbeq]), if_pos hflag]
  · intro m hmem
    rw [hm] at hmem
    rcases List.mem_filterMap.mp hmem with ⟨g, hg, hf⟩
    cases h1 : g.domain == (detectMfe s).shell with
    | true => rw [if_pos h1] at hf; exact Option.noConfusion hf
    | false =>
      rw [if_neg (by simp [h1])] at hf
      cases h2 : g.hasRemoteEntry || g.hasWebpackSharing with
      | false => rw [if_neg (by simp [h2])] at hf; exact Option.noConfusion hf
      | true =>
        rw [if_pos h2] at hf
        have hm2 : m = ⟨extractMfeName g.domain, g.scripts⟩ := by
          injection hf with h
          exact h.symm
        exact ⟨g, hg, hm2, by simpa using h1, h2⟩

theorem detectMfe_remote_identification_witness :
    (⟨"mfe-3001", ["http://localhost:3001/remoteEntry.js"]⟩ : MfeInfo) ∈
      (detectMfe ⟨"", "http://localhost:3000/", "",
        ["http://localhost:3000/main.js", "http://localhost:3001/remoteEntry.js"]⟩).mfes :=
  (detectMfe_remote_identification _).1
    ⟨"http://localhost:3001", ["http://localhost:3001/remoteEntry.js"], true, false⟩
    (by decide) (by decide) (by decide)

/-- C2: the two-script localhost scenario yields shell `http://localhost:3000`
and a single MFE named `mfe-3001` owning the remote-entry script. -/
theorem detectMfe_localhost_scenario (title dom : String) :
    detectMfe ⟨title, "http://localhost:3000/", dom,
      ["http://localhost:3000/main.js", "http://localhost:3001/remoteEntry.js"]⟩ =
    ⟨"http://localhost:3000", [⟨"mfe-3001", ["http://localhost:3001/remoteEntry.js"]⟩]⟩ := by
  rfl

/-! ## DOM model

The markup-to-tree capability (jsdom in the source) is external to the
engine; it is modelled structurally.  A document is the list of children
of `body`; each element is recorded together with its chain of ancestors
up to but excluding `body`, which is exactly the range the source's
`while (current && current !== dom.body)` walk visits.  Attribute names
are as the HTML parser produces them (lower-cased). -/

inductive DomNode where
  | elem (tag : String) (attrs : List (String × String)) (children : List DomNode)
  | text (s : String)

/-- An element in context: its own data plus the `(tag, attrs)` of its
ancestors, nearest parent first, excluding `body`. -/
structure ElemCtx where
  tag : String
  attrs : List (String × String)
  children : List DomNode
  ancestors : List (String × List (String × String))

/-- `getAttribute`: the first binding of the attribute name. -/
def lookupAttr : List (String × String) → String → Option String
  | [], _ => none
  | (k, v) :: t, n => if k = n then some v else lookupAttr t n

def getAttr (e : ElemCtx) (n : String) : Option String := lookupAttr e.attrs n

/-- `hasAttribute`: presence, whatever the value. -/
def hasAttr (e : ElemCtx) (n : String) : Bool := (getAttr e n).isSome

/-- A value used in a JavaScript truthiness test: `null` (absent) and the
empty string are both falsy. -/
def truthyVal (o : Option String) : Option String :=
  match o with
  | some v => if v = "" then none else some v
  | none => none

/-- A `getAttribute` read used in a JavaScript truthiness test. -/
def truthyAttr (e : ElemCtx) (n : String) : Option String := truthyVal (getAttr e n)

mutual
def textContentNode : DomNode → String
  | .elem _ _ cs => textContentList cs
  | .text s => s
def textContentList : List DomNode → String
  | [] => ""
  | n :: ns => textContentNode n ++ textContentList ns
end

/-- `element.textContent` (concatenated descendant text). -/
def textContent (e : ElemCtx) : String := textContentList e.children

mutual
def firstImgNode : DomNode → Option (List (String × String))
  | .elem t a cs => if lowerS t = "img" then some a else firstImgList cs
  | .text _ => none
def firstImgList : List DomNode → Option (List (String × String))
  | [] => none
  | n :: ns =>
    match firstImgNode n with
    | some r => some r
    | none => firstImgList ns
end

/-- `element.querySelector("img")`: attributes of the first descendant
`img` in document order. -/
def firstImg (e : ElemCtx) : Option (List (String × String)) := firstImgList e.children

/-- Models the `HTMLInputElement.type` IDL getter that the source reads as
`element.type || 'text'`: the lower-cased `type` attribute, with absent or
empty values giving `text`.  (The real getter also maps unknown keywords
to `text`; the difference is invisible to `getRole`, which only separates
the five known keywords below from everything else.) -/
def inputTypeOf (e : ElemCtx) : String :=
  match getAttr e "type" with
  | some v => if lowerS v = "" then "text" else lowerS v
  | none => "text"

/-- Models the `HTMLInputElement.value` IDL getter for a freshly parsed
document: the `value` attribute, or the empty string. -/
def inputValueOf (e : ElemCtx) : String := (getAttr e "value").getD ""

/-- `getRole` from the source. -/
def getRole (e : ElemCtx) : String :=
  match truthyAttr e "role" with
  | some r => r
  | none =>
    if lowerS e.tag = "button" then "button"
    else if lowerS e.tag = "a" then "link"
    else if lowerS e.tag = "input" then
      if inputTypeOf e = "button" ∨ inputTypeOf e = "submit" ∨ inputTypeOf e = "reset" then
        "button"
      else if inputTypeOf e = "checkbox" then "checkbox"
      else if inputTypeOf e = "radio" then "radio"
      else "textbox"
    else if lowerS e.tag = "select" then "combobox"
    else if lowerS e.tag = "textarea" then "textbox"
    else if hasAttr e "onclick" || hasAttr e "tabindex" then "button"
    else "generic"

/-- The recurring JavaScript pattern `x && x.trim()` followed by
`return x.trim()`: the trimmed value when non-blank. -/
def trimmedOpt (o : Option String) : Option String :=
  match o with
  | some v => if trimS v = "" then none else some (trimS v)
  | none => none

/-- `getAccessibleName` from the source. -/
def getAccessibleName (e : ElemCtx) : String :=
  match trimmedOpt (getAttr e "aria-label") with
  | some v => v
  | none =>
    match (if lowerS e.tag = "a" ∨ lowerS e.tag = "button"
           then trimmedOpt (some (textContent e)) else none) with
    | some v => v
    | none =>
      match (if lowerS e.tag = "input" ∨ lowerS e.tag = "textarea"
             then trimmedOpt (getAttr e "placeholder") else none) with
      | some v => v
      | none =>
        match trimmedOpt (getAttr e "title") with
        | some v => v
        | none =>
          match (if lowerS e.tag = "input"
                 then trimmedOpt (some (inputValueOf e)) else none) with
          | some v => v
          | none =>
            match (match firstImg e with
                   | some imgAttrs => trimmedOpt (lookupAttr imgAttrs "alt")
                   | none => none) with
            | some v => v
            | none => lowerS e.tag

/-- `ariaLabel.replace(/"/g, '\"')` of the source. -/
def escapeQuotes (s : String) : String :=
  ⟨(s.data.map (fun c => if c = '"' then ['\\', '"'] else [c])).flatten⟩

/-- The last two branches of `generateSelector`: the text-content branch
for short-named buttons/links and the final fallback return the same
string in the source, so both appear here. -/
def selectorFallback (e : ElemCtx) (role : String) : String :=
  if getAccessibleName e ≠ "" ∧ (getAccessibleName e).length < 50 ∧
      (lowerS e.tag = "button" ∨ lowerS e.tag = "a") then
    lowerS e.tag ++ "[role=\"" ++ role ++ "\"]"
  else
    lowerS e.tag ++ "[role=\"" ++ role ++ "\"]"

/-- `generateSelector` from the source. -/
def generateSelector (e : ElemCtx) (role : String) : String :=
  match truthyAttr e "id" with
  | some id => "[role=\"" ++ role ++ "\"]#" ++ id
  | none =>
    match (match truthyAttr e "name" with
           | some nm =>
             if lowerS e.tag = "input" ∨ lowerS e.tag = "select" then some nm else none
           | none => none) with
    | some nm => "[role=\"" ++ role ++ "\"][name=\"" ++ nm ++ "\"]"
    | none =>
      match getAttr e "aria-label" with
      | some al =>
        if trimS al ≠ "" then
          "[role=\"" ++ role ++ "\"][aria-label=\"" ++ escapeQuotes al ++ "\"]"
        else selectorFallback e role
      | none => selectorFallback e role

/-- JavaScript `a || b` over two `getAttribute` results. -/
def attrOrJs (x y : Option String) : Option String :=
  match x with
  | some v => if v = "" then y else some v
  | none => y

/-- The bidirectional case-insensitive containment test of
`inferMfeOwner` step 1. -/
def mfeNameMatches (dataMfe : String) (m : MfeInfo) : Bool :=
  jsIncludes (lowerS m.name) (lowerS dataMfe) || jsIncludes (lowerS dataMfe) (lowerS m.name)

/-- The ancestor walk of `inferMfeOwner` (`while (current && current !==
dom.body)`): the ancestor chain handed over already stops before `body`. -/
def scanAncestors (mfes : List MfeInfo) : List (String × List (String × String)) → Option String
  | [] => none
  | (_, attrs) :: rest =>
    if ((lookupAttr attrs "id").getD "" ≠ "") ∨ ((lookupAttr attrs "class").getD "" ≠ "") then
      match mfes.find? (fun m =>
          jsIncludes (lowerS ((lookupAttr attrs "id").getD "" ++ " " ++
            (lookupAttr attrs "class").getD "")) (lowerS m.name) ||
          jsIncludes (lowerS ((lookupAttr attrs "id").getD "" ++ " " ++
            (lookupAttr attrs "class").getD "")) "mfe" ||
          jsIncludes (lowerS ((lookupAttr attrs "id").getD "" ++ " " ++
            (lookupAttr attrs "class").getD "")) "remote" ||
          jsIncludes (lowerS ((lookupAttr attrs "id").getD "" ++ " " ++
            (lookupAttr attrs "class").getD "")) "microfrontend") with
      | some m => some m.name
      | none => scanAncestors mfes rest
    else scanAncestors mfes rest

/-- `inferMfeOwner` from the source. -/
def inferMfeOwner (e : ElemCtx) (mfeAnalysis : MfeAnalysis) : Option String :=
  match attrOrJs (getAttr e "data-mfe")
      (attrOrJs (getAttr e "data-microfrontend") (getAttr e "data-remote")) with
  | some dataMfe =>
    if dataMfe = "" then scanAncestors mfeAnalysis.mfes e.ancestors
    else
      match mfeAnalysis.mfes.find? (mfeNameMatches dataMfe) with
      | some m => some m.name
      | none => scanAncestors mfeAnalysis.mfes e.ancestors
  | none => scanAncestors mfeAnalysis.mfes e.ancestors

mutual
def collectNode (anc : List (String × List (String × String))) : DomNode → List ElemCtx
  | .elem t a cs => ⟨t, a, cs, anc⟩ :: collectList ((t, a) :: anc) cs
  | .text _ => []
def collectList (anc : List (String × List (String × String))) : List DomNode → List ElemCtx
  | [] => []
  | n :: ns => collectNode anc n ++ collectList anc ns
end

/-- All elements of the document in document (pre-)order — the order
`querySelectorAll` yields matches in. -/
def allElems (doc : List DomNode) : List ElemCtx := collectList [] doc

/-- The element's `type` attribute as CSS attribute selectors match it
(`type` is in HTML's ASCII case-insensitive list). -/
def typeAttrCI (e : ElemCtx) : Option String := (getAttr e "type").map lowerS

/-- The buttons-pass query `button, input[type="button"],
input[type="submit"], input[type="reset"], [role="button"]`. -/
def matchesButtonsQuery (e : ElemCtx) : Bool :=
  lowerS e.tag == "button" ||
  (lowerS e.tag == "input" &&
    (typeAttrCI e == some "button" || typeAttrCI e == some "submit" ||
      typeAttrCI e == some "reset")) ||
  getAttr e "role" == some "button"

/-- The links-pass query `a[href], [role="link"]`. -/
def matchesLinksQuery (e : ElemCtx) : Bool :=
  (lowerS e.tag == "a" && hasAttr e "href") || getAttr e "role" == some "link"

/-- The inputs-pass query `input:not([type="button"]):not([type="submit"])
:not([type="reset"]), textarea, select, [role="textbox"], [role="combobox"],
[role="checkbox"], [role="radio"]`. -/
def matchesInputsQuery (e : ElemCtx) : Bool :=
  (lowerS e.tag == "input" &&
    !(typeAttrCI e == some "button" || typeAttrCI e == some "submit" ||
      typeAttrCI e == some "reset")) ||
  lowerS e.tag == "textarea" || lowerS e.tag == "select" ||
  getAttr e "role" == some "textbox" || getAttr e "role" == some "combobox" ||
  getAttr e "role" == some "checkbox" || getAttr e "role" == some "radio"

def isButtonCat (r : String) : Bool := r == "button"

def isLinkCat (r : String) : Bool := r == "link"

def isInputCat (r : String) : Bool :=
  r == "textbox" || r == "combobox" || r == "checkbox" || r == "radio"

structure InteractiveElement where
  role : String
  accessibleName : String
  selector : String
  tagName : String
  mfeOwner : Option String
deriving DecidableEq, Repr

/-- Building the record pushed by each extraction pass. -/
def mkInteractiveElement (e : ElemCtx) (a : MfeAnalysis) (role : String) : InteractiveElement :=
  ⟨role, getAccessibleName e, generateSelector e role, lowerS e.tag, inferMfeOwner e a⟩

/-- The body of one `querySelectorAll(...).forEach` pass of
`extractInteractiveElements`: skip if visited, mark visited, and push the
element when its resolved role belongs to the pass's category.  Identity
in the JavaScript `Set<Element>` is modelled by the element's index in
document order. -/
def passStep (a : MfeAnalysis) (catOk : String → Bool)
    (st : List Nat × List (Nat × InteractiveElement)) (p : Nat × ElemCtx) :
    List Nat × List (Nat × InteractiveElement) :=
  if st.1.contains p.1 then st
  else
    if catOk (getRole p.2) then
      (st.1 ++ [p.1], st.2 ++ [(p.1, mkInteractiveElement p.2 a (getRole p.2))])
    else (st.1 ++ [p.1], st.2)

def extractPass (a : MfeAnalysis) (q : ElemCtx → Bool) (catOk : String → Bool)
    (elems : List (Nat × ElemCtx)) (st : List Nat × List (Nat × InteractiveElement)) :
    List Nat × List (Nat × InteractiveElement) :=
  (elems.filter (fun p => q p.2)).foldl (passStep a catOk) st

/-- `extractInteractiveElements` from the source, with indices kept for
identity. -/
def extractPairs (doc : List DomNode) (a : MfeAnalysis) : List (Nat × InteractiveElement) :=
  (extractPass a matchesInputsQuery isInputCat ((allElems doc).enum)
    (extractPass a matchesLinksQuery isLinkCat ((allElems doc).enum)
      (extractPass a matchesButtonsQuery isButtonCat ((allElems doc).enum) ([], [])))).2

def extractInteractiveElements (doc : List DomNode) (a : MfeAnalysis) : List InteractiveElement :=
  (extractPairs doc a).map Prod.snd

/-- `mfes[mfe.name].push(element)` on the insertion-ordered record. -/
def pushBucket (bs : List (String × List InteractiveElement)) (k : String)
    (el : InteractiveElement) : List (String × List InteractiveElement) :=
  bs.map (fun p => if p.1 = k then (p.1, p.2 ++ [el]) else p)

/-- `for (const mfe of mfeAnalysis.mfes) mfes[mfe.name] = []` — re-assigning
an existing key keeps its position and (here) its empty value. -/
def initBuckets (mfes : List MfeInfo) : List (String × List InteractiveElement) :=
  mfes.foldl
    (fun bs m =>
      if bs.any (fun p => p.1 == m.name) then bs
      else bs ++ [(m.name, ([] : List InteractiveElement))]) []

/-- The grouping loop body of `mapInteractions`:
`if (element.mfeOwner && mfes[element.mfeOwner]) push else shell.push` —
the owner string is truthy when non-empty, and the looked-up bucket is
truthy exactly when the key exists (arrays are always truthy). -/
def groupStep (st : List InteractiveElement × List (String × List InteractiveElement))
    (el : InteractiveElement) :
    List InteractiveElement × List (String × List InteractiveElement) :=
  match el.mfeOwner with
  | some k =>
    if k ≠ "" ∧ st.2.any (fun p => p.1 == k) then (st.1, pushBucket st.2 k el)
    else (st.1 ++ [el], st.2)
  | none => (st.1 ++ [el], st.2)

structure InteractionMap where
  shell : List InteractiveElement
  mfes : List (String × List InteractiveElement)
deriving DecidableEq, Repr

/-- `mapInteractions` from the source, after the external jsdom parse. -/
def mapInteractions (doc : List DomNode) (mfeAnalysis : MfeAnalysis) : InteractionMap :=
  let elements := extractInteractiveElements doc mfeAnalysis
  let grouped := elements.foldl groupStep ([], initBuckets mfeAnalysis.mfes)
  ⟨grouped.1, grouped.2⟩

/-! ## Role resolution (claim C6) -/

/-- Role resolution as claim C6 words it: explicit role attribute
verbatim, else tag-based inference, else click-handler/tab-index fallback,
else generic.  An element "has" an explicit role attribute when
`getAttribute` yields a non-empty value — the DOM convention (an empty
`role` defines no role) that the source's truthiness test implements. -/
def roleSpec (e : ElemCtx) : String :=
  match truthyAttr e "role" with
  | some r => r
  | none =>
    if lowerS e.tag = "button" then "button"
    else if lowerS e.tag = "a" then "link"
    else if lowerS e.tag = "input" then
      if ["button", "submit", "reset"].contains (inputTypeOf e) then "button"
      else if inputTypeOf e = "checkbox" then "checkbox"
      else if inputTypeOf e = "radio" then "radio"
      else "textbox"
    else if lowerS e.tag = "select" then "combobox"
    else if lowerS e.tag = "textarea" then "textbox"
    else if hasAttr e "onclick" || hasAttr e "tabindex" then "button"
    else "generic"

/-- C6: for every element, `getRole` applies the claim's ordered rule
chain — explicit role attribute verbatim; else tag-based inference
(button, a, input by type, select, textarea); else click-handler or
tab-index attribute gives button; else generic. -/
theorem getRole_follows_priority (e : ElemCtx) : getRole e = roleSpec e := by
  unfold getRole roleSpec
  cases truthyAttr e "role" with
  | some r => rfl
  | none =>
    have hc : ((["button", "submit", "reset"] : List String).contains (inputTypeOf e) = true) ↔
        (inputTypeOf e = "button" ∨ inputTypeOf e = "submit" ∨ inputTypeOf e = "reset") := by
      simp [List.contains, List.elem_eq_mem]
    simp only [hc]

/-! ## Accessible-name resolution (claim C7) -/

/-- The candidate chain of `getAccessibleName` as an explicit list, in the
claim's order; each entry is the trimmed candidate, or empty when the
candidate does not apply to the element's tag. -/
def accNameCandidates (e : ElemCtx) : List String :=
  [trimS ((getAttr e "aria-label").getD ""),
   if lowerS e.tag = "a" ∨ lowerS e.tag = "button" then trimS (textContent e) else "",
   if lowerS e.tag = "input" ∨ lowerS e.tag = "textarea"
     then trimS ((getAttr e "placeholder").getD "") else "",
   trimS ((getAttr e "title").getD ""),
   if lowerS e.tag = "input" then trimS (inputValueOf e) else "",
   (match firstImg e with
    | some imgAttrs => trimS ((lookupAttr imgAttrs "alt").getD "")
    | none => "")]

/-- Accessible-name resolution as claim C7 words it: the first non-empty
candidate after trimming, with the lower-cased tag name as final
fallback. -/
def accNameSpec (e : ElemCtx) : String :=
  ((accNameCandidates e).find? (fun c => c != "")).getD (lowerS e.tag)

/-- A first-some chain over optional candidates. -/
def chainOf : List (Option String) → String → String
  | [], fb => fb
  | o :: os, fb =>
    match o with
    | some v => v
    | none => chainOf os fb

/-- The componentwise relation between an optional candidate and its
string rendering in `accNameCandidates`. -/
def OptCand (o : Option String) (c : String) : Prop :=
  (∀ v, o = some v → c = v ∧ v ≠ "") ∧ (o = none → c = "")

theorem chainOf_eq_find (fb : String) :
    ∀ (os : List (Option String)) (cs : List String), List.Forall₂ OptCand os cs →
      chainOf os fb = (cs.find? (fun c => c != "")).getD fb := by
  intro os cs h
  induction h with
  | nil => rfl
  | @cons o c os' cs' hoc _ ih =>
    obtain ⟨h1, h2⟩ := hoc
    cases ho : o with
    | none =>
      rw [h2 ho]
      simp only [chainOf, List.find?]
      simpa using ih
    | some v =>
      obtain ⟨hcv, hv⟩ := h1 v ho
      subst hcv
      have hb : (c != "") = true := by simpa using hv
      simp [chainOf, List.find?, hb]

theorem optCand_trimmed (o : Option String) :
    OptCand (trimmedOpt o) (trimS (o.getD "")) := by
  constructor
  · intro v hv
    cases o with
    | none => simp [trimmedOpt] at hv
    | some w =>
      simp only [trimmedOpt] at hv
      by_cases hw : trimS w = ""
      · simp [hw] at hv
      · simp [hw] at hv
        simp [Option.getD, ← hv, hw]
  · intro hn
    cases o with
    | none => rfl
    | some w =>
      simp only [trimmedOpt] at hn
      by_cases hw : trimS w = ""
      · simpa [Option.getD] using hw
      · simp [hw] at hn

theorem optCand_guard (cond : Prop) [Decidable cond] (o : Option String) (c : String)
    (h : OptCand o c) :
    OptCand (if cond then o else none) (if cond then c else "") := by
  by_cases hc : cond
  · simpa [hc] using h
  · simp [hc, OptCand]

theorem getAccessibleName_eq_chain (e : ElemCtx) :
    getAccessibleName e =
      chainOf
        [trimmedOpt (getAttr e "aria-label"),
         if lowerS e.tag = "a" ∨ lowerS e.tag = "button"
           then trimmedOpt (some (textContent e)) else none,
         if lowerS e.tag = "input" ∨ lowerS e.tag = "textarea"
           then trimmedOpt (getAttr e "placeholder") else none,
         trimmedOpt (getAttr e "title"),
         if lowerS e.tag = "input" then trimmedOpt (some (inputValueOf e)) else none,
         (match firstImg e with
          | some imgAttrs => trimmedOpt (lookupAttr imgAttrs "alt")
          | none => none)]
        (lowerS e.tag) := rfl

/-- C7: `getAccessibleName` returns the first non-empty candidate after
trimming in the claimed order (label attribute; text content for a/button;
placeholder for input/textarea; title; input value; contained image alt;
lower-cased tag name), the result is non-empty whenever the element has a
tag name, and the two spelled-out examples resolve to "Submit" and "Go". -/
theorem getAccessibleName_follows_priority (e : ElemCtx) :
    getAccessibleName e = accNameSpec e ∧
    (e.tag ≠ "" → getAccessibleName e ≠ "") ∧
    getAccessibleName ⟨"button", [("aria-label", "Submit")], [DomNode.text "Go"], []⟩
      = "Submit" ∧
    getAccessibleName ⟨"button", [], [DomNode.text "Go"], []⟩ = "Go" := by
  have hmain : getAccessibleName e = accNameSpec e := by
    rw [getAccessibleName_eq_chain]
    unfold accNameSpec
    apply chainOf_eq_find
    unfold accNameCandidates
    refine .cons (optCand_trimmed _) (.cons ?_ (.cons ?_ (.cons (optCand_trimmed _)
      (.cons ?_ (.cons ?_ .nil)))))
    · exact optCand_guard _ _ _ (optCand_trimmed _)
    · exact optCand_guard _ _ _ (optCand_trimmed _)
    · exact optCand_guard _ _ _ (optCand_trimmed _)
    · cases hf : firstImg e with
      | some imgAttrs => exact optCand_trimmed _
      | none => exact ⟨fun v hv => by simp at hv, fun _ => rfl⟩
  refine ⟨hmain, ?_, by decide, by decide⟩
  intro htag
  rw [hmain]
  unfold accNameSpec
  cases hf : (accNameCandidates e).find? (fun c => c != "") with
  | some c =>
    have := List.find?_some hf
    simp only [Option.getD]
    simpa using this
  | none =>
    simp only [Option.getD]
    exact lowerS_ne_empty _ htag

theorem getAccessibleName_follows_priority_witness :
    getAccessibleName ⟨"button", [], [DomNode.text "Go"], []⟩ ≠ "" :=
  (getAccessibleName_follows_priority ⟨"button", [], [DomNode.text "Go"], []⟩).2.1
    (by decide)

/-! ## Selector generation (claim C8) -/

/-- Selector generation exactly as claim C8 words it, clause (3) keyed on a
non-empty (rather than non-blank) label attribute. -/
def generateSelectorClaim (e : ElemCtx) (role : String) : String :=
  match truthyAttr e "id" with
  | some id => "[role=\"" ++ role ++ "\"]#" ++ id
  | none =>
    match (if lowerS e.tag = "input" ∨ lowerS e.tag = "select"
           then truthyAttr e "name" else none) with
    | some nm => "[role=\"" ++ role ++ "\"][name=\"" ++ nm ++ "\"]"
    | none =>
      match getAttr e "aria-label" with
      | some al =>
        if al ≠ "" then
          "[role=\"" ++ role ++ "\"][aria-label=\"" ++ escapeQuotes al ++ "\"]"
        else lowerS e.tag ++ "[role=\"" ++ role ++ "\"]"
      | none => lowerS e.tag ++ "[role=\"" ++ role ++ "\"]"

/-- Claim C8 as amended: clause (3) applies to a label attribute that is
non-empty after trimming (the source tests `ariaLabel.trim()`), with the
raw label, quotes escaped, embedded in the selector. -/
def generateSelectorAmended (e : ElemCtx) (role : String) : String :=
  match truthyAttr e "id" with
  | some id => "[role=\"" ++ role ++ "\"]#" ++ id
  | none =>
    match (if lowerS e.tag = "input" ∨ lowerS e.tag = "select"
           then truthyAttr e "name" else none) with
    | some nm => "[role=\"" ++ role ++ "\"][name=\"" ++ nm ++ "\"]"
    | none =>
      match getAttr e "aria-label" with
      | some al =>
        if trimS al ≠ "" then
          "[role=\"" ++ role ++ "\"][aria-label=\"" ++ escapeQuotes al ++ "\"]"
        else lowerS e.tag ++ "[role=\"" ++ role ++ "\"]"
      | none => lowerS e.tag ++ "[role=\"" ++ role ++ "\"]"

/-- C8 counterexample: for a whitespace-only label, the claim's clause (3)
("non-empty label attribute") demands the aria-label selector, but the
source requires the label to be non-blank after trimming and falls through
to `<tag>[role="<role>"]`. -/
theorem generateSelector_claim_counterexample :
    generateSelector ⟨"div", [("aria-label", " ")], [], []⟩ "generic"
      = "div[role=\"generic\"]" ∧
    generateSelectorClaim ⟨"div", [("aria-label", " ")], [], []⟩ "generic"
      = "[role=\"generic\"][aria-label=\" \"]" ∧
    generateSelector ⟨"div", [("aria-label", " ")], [], []⟩ "generic" ≠
      generateSelectorClaim ⟨"div", [("aria-label", " ")], [], []⟩ "generic" := by
  refine ⟨by decide, by decide, by decide⟩

theorem selectorFallback_eq (e : ElemCtx) (role : String) :
    selectorFallback e role = lowerS e.tag ++ "[role=\"" ++ role ++ "\"]" := by
  unfold selectorFallback
  split <;> rfl

/-- C8 (amended): for every element and role, `generateSelector` follows
the claimed priority — id selector; name selector for input/select; the
aria-label selector when the label is non-blank after trimming, quotes
escaped; else `<tag>[role="<role>"]`. -/
theorem generateSelector_follows_amended_priority (e : ElemCtx) (role : String) :
    generateSelector e role = generateSelectorAmended e role := by
  unfold generateSelector generateSelectorAmended
  cases truthyAttr e "id" with
  | some id => rfl
  | none =>
    have hname : (match truthyAttr e "name" with
        | some nm =>
          if lowerS e.tag = "input" ∨ lowerS e.tag = "select" then some nm else none
        | none => none) =
        (if lowerS e.tag = "input" ∨ lowerS e.tag = "select"
         then truthyAttr e "name" else none) := by
      cases truthyAttr e "name" with
      | some nm => by_cases hc : lowerS e.tag = "input" ∨ lowerS e.tag = "select" <;> simp [hc]
      | none => simp
    rw [hname]
    cases (if lowerS e.tag = "input" ∨ lowerS e.tag = "select"
           then truthyAttr e "name" else none) with
    | some nm => rfl
    | none =>
      cases getAttr e "aria-label" with
      | some al =>
        by_cases hal : trimS al ≠ "" <;> simp [hal, selectorFallback_eq]
      | none => simp [selectorFallback_eq]

/-! ## Ownership inference (claim C4) -/

theorem truthyVal_attrOrJs (x y : Option String) :
    truthyVal (attrOrJs x y) =
      (match truthyVal x with
       | some v => some v
       | none => truthyVal y) := by
  cases x with
  | none => rfl
  | some v => by_cases hv : v = "" <;> simp [attrOrJs, truthyVal, hv]

/-- The hint the element carries: the first of the fixed ownership-hint
attributes `data-mfe`, `data-microfrontend`, `data-remote` carrying a
non-empty value.  (DOM convention, which the source's truthiness chain
implements: an absent attribute and an empty value are alike no hint.) -/
def ownershipHint (e : ElemCtx) : Option String :=
  match truthyAttr e "data-mfe" with
  | some v => some v
  | none =>
    match truthyAttr e "data-microfrontend" with
    | some v => some v
    | none => truthyAttr e "data-remote"

/-- Ownership inference as claim C4 words it: (1) a carried hint is
compared case-insensitively by bidirectional containment against every
known MFE name, first match in list order wins; (2) otherwise the ancestor
walk (`scanAncestors`, itself word-for-word the claim's step 2: each
ancestor with a non-empty id or class contributes the lower-cased blob
`id + " " + class`, tested per MFE for the MFE's name or a generic
marker); (3) otherwise absent, meaning shell. -/
def inferOwnerSpec (e : ElemCtx) (a : MfeAnalysis) : Option String :=
  match ownershipHint e with
  | some hint =>
    match a.mfes.find? (fun m =>
        jsIncludes (lowerS m.name) (lowerS hint) ||
          jsIncludes (lowerS hint) (lowerS m.name)) with
    | some m => some m.name
    | none => scanAncestors a.mfes e.ancestors
  | none => scanAncestors a.mfes e.ancestors

theorem ownershipHint_eq_code (e : ElemCtx) :
    truthyVal (attrOrJs (getAttr e "data-mfe")
        (attrOrJs (getAttr e "data-microfrontend") (getAttr e "data-remote"))) =
      ownershipHint e := by
  unfold ownershipHint
  rw [truthyVal_attrOrJs, truthyVal_attrOrJs]
  rfl

/-- C4: for every element and analysis, `inferMfeOwner` follows the
claim's three ordered steps. -/
theorem inferMfeOwner_follows_priority (e : ElemCtx) (a : MfeAnalysis) :
    inferMfeOwner e a = inferOwnerSpec e a := by
  unfold inferMfeOwner inferOwnerSpec
  cases hA : attrOrJs (getAttr e "data-mfe")
      (attrOrJs (getAttr e "data-microfrontend") (getAttr e "data-remote")) with
  | none =>
    have hS : ownershipHint e = none := by
      rw [← ownershipHint_eq_code, hA]
      rfl
    rw [hS]
  | some d =>
    by_cases hd : d = ""
    · subst hd
      have hS : ownershipHint e = none := by
        rw [← ownershipHint_eq_code, hA]
        simp [truthyVal]
      rw [hS]
      simp
    · have hS : ownershipHint e = some d := by
        rw [← ownershipHint_eq_code, hA]
        simp [truthyVal, hd]
      rw [hS]
      simp only [if_neg hd]
      rfl

/-! ## Grouping and conservation (claim C3) -/

theorem pushBucket_keys (bs : List (String × List InteractiveElement)) (k : String)
    (el : InteractiveElement) : (pushBucket bs k el).map Prod.fst = bs.map Prod.fst := by
  unfold pushBucket
  rw [List.map_map]
  apply List.map_congr_left
  intro p hp
  by_cases hpk : p.1 = k <;> simp [hpk]

theorem pushBucket_any_key (bs : List (String × List InteractiveElement)) (k k' : String)
    (el : InteractiveElement) :
    (pushBucket bs k el).any (fun p => p.1 == k') = bs.any (fun p => p.1 == k') := by
  induction bs with
  | nil => rfl
  | cons p t ih =>
    unfold pushBucket at ih ⊢
    by_cases hpk : p.1 = k <;> simp [hpk, ih]

theorem pushBucket_id (bs : List (String × List InteractiveElement)) (k : String)
    (el : InteractiveElement) (h : ∀ p ∈ bs, p.1 ≠ k) : pushBucket bs k el = bs := by
  induction bs with
  | nil => rfl
  | cons p t ih =>
    unfold pushBucket at ih ⊢
    have hp : p.1 ≠ k := h p (List.mem_cons_self _ _)
    simp only [List.map_cons, hp, if_false]
    rw [ih (fun q hq => h q (List.mem_cons_of_mem _ hq))]

/-- The multiset of all elements kept in the buckets. -/
def bucketsMS (bs : List (String × List InteractiveElement)) : Multiset InteractiveElement :=
  (bs.map (fun p => (p.2 : Multiset InteractiveElement))).sum

theorem pushBucket_ms (bs : List (String × List InteractiveElement)) (k : String)
    (el : InteractiveElement) (hnd : (bs.map Prod.fst).Nodup)
    (hmem : bs.any (fun p => p.1 == k) = true) :
    bucketsMS (pushBucket bs k el) = bucketsMS bs + {el} := by
  induction bs with
  | nil => simp at hmem
  | cons p t ih =>
    rw [List.map_cons, List.nodup_cons] at hnd
    by_cases hpk : p.1 = k
    · have ht : pushBucket t k el = t := by
        apply pushBucket_id
        intro q hq hq1
        have hq2 : q.1 ∈ t.map Prod.fst := List.mem_map.mpr ⟨q, hq, rfl⟩
        rw [hq1, ← hpk] at hq2
        exact hnd.1 hq2
      unfold bucketsMS
      unfold pushBucket at ht ⊢
      rw [List.map_cons, if_pos hpk, ht, List.map_cons, List.sum_cons,
        List.map_cons, List.sum_cons]
      have hco : ((p.2 ++ [el] : List InteractiveElement) : Multiset InteractiveElement) =
          (p.2 : Multiset InteractiveElement) + {el} := rfl
      rw [hco]
      abel
    · have hhead : (p.1 == k) = false := by simp [hpk]
      have hmt : t.any (fun q => q.1 == k) = true := by
        simp only [List.any_cons, hhead, Bool.false_or] at hmem
        exact hmem
      unfold bucketsMS at ih ⊢
      unfold pushBucket at ih ⊢
      rw [List.map_cons, if_neg hpk, List.map_cons, List.sum_cons,
        List.map_cons, List.sum_cons]
      rw [ih hnd.2 hmt]
      abel

theorem groupFold_ms (els : List InteractiveElement) :
    ∀ (sh0 : List InteractiveElement) (bs0 : List (String × List InteractiveElement)),
      (bs0.map Prod.fst).Nodup →
      (((els.foldl groupStep (sh0, bs0)).1 : List InteractiveElement) : Multiset InteractiveElement) +
          bucketsMS (els.foldl groupStep (sh0, bs0)).2 =
        ((sh0 : List InteractiveElement) : Multiset InteractiveElement) + bucketsMS bs0 +
          (els : Multiset InteractiveElement) := by
  induction els with
  | nil => intro sh0 bs0 _; simp
  | cons el t ih =>
    intro sh0 bs0 hnd
    simp only [List.foldl_cons]
    have hcons : ((el :: t : List InteractiveElement) : Multiset InteractiveElement) =
        {el} + (t : Multiset InteractiveElement) := rfl
    cases ho : el.mfeOwner with
    | none =>
      have hstep : groupStep (sh0, bs0) el = (sh0 ++ [el], bs0) := by
        simp [groupStep, ho]
      rw [hstep, ih _ _ hnd, hcons]
      have hsh : ((sh0 ++ [el] : List InteractiveElement) : Multiset InteractiveElement) =
          (sh0 : Multiset InteractiveElement) + {el} := rfl
      rw [hsh]
      abel
    | some k =>
      by_cases hc : k ≠ "" ∧ bs0.any (fun p => p.1 == k) = true
      · have hstep : groupStep (sh0, bs0) el = (sh0, pushBucket bs0 k el) := by
          simp [groupStep, ho, hc.1, hc.2]
        rw [hstep, ih _ _ (by rw [pushBucket_keys]; exact hnd),
          pushBucket_ms bs0 k el hnd hc.2, hcons]
        abel
      · have hstep : groupStep (sh0, bs0) el = (sh0 ++ [el], bs0) := by
          simp only [groupStep, ho]
          rw [if_neg hc]
        rw [hstep, ih _ _ hnd, hcons]
        have hsh : ((sh0 ++ [el] : List InteractiveElement) : Multiset InteractiveElement) =
            (sh0 : Multiset InteractiveElement) + {el} := rfl
        rw [hsh]
        abel

/-- The filtering predicate that decides whether the grouping loop sends
an element to the shell bucket, given the bucket keys. -/
def sentToShell (bs0 : List (String × List InteractiveElement)) (el : InteractiveElement) : Bool :=
  match el.mfeOwner with
  | some k => !(decide (k ≠ "") && bs0.any (fun p => p.1 == k))
  | none => true

theorem groupFold_spec (els : List InteractiveElement) :
    ∀ (sh0 : List InteractiveElement) (bs0 : List (String × List InteractiveElement)),
      (els.foldl groupStep (sh0, bs0)).1 = sh0 ++ els.filter (sentToShell bs0) ∧
      (els.foldl groupStep (sh0, bs0)).2 =
        bs0.map (fun p => (p.1, p.2 ++ els.filter (fun el =>
          el.mfeOwner == some p.1 && p.1 != ""))) := by
  induction els with
  | nil =>
    intro sh0 bs0
    constructor
    · simp
    · simp
  | cons el t ih =>
    intro sh0 bs0
    simp only [List.foldl_cons]
    cases ho : el.mfeOwner with
    | none =>
      have hstep : groupStep (sh0, bs0) el = (sh0 ++ [el], bs0) := by
        simp [groupStep, ho]
      rw [hstep]
      obtain ⟨ihs, ihb⟩ := ih (sh0 ++ [el]) bs0
      constructor
      · rw [ihs, List.append_assoc, List.filter_cons]
        have hpred : sentToShell bs0 el = true := by simp [sentToShell, ho]
        simp [hpred]
      · rw [ihb]
        apply List.map_congr_left
        intro p hp
        rw [List.filter_cons]
        simp [ho]
    | some k =>
      by_cases hc : k ≠ "" ∧ bs0.any (fun p => p.1 == k) = true
      · have hstep : groupStep (sh0, bs0) el = (sh0, pushBucket bs0 k el) := by
          simp [groupStep, ho, hc.1, hc.2]
        rw [hstep]
        obtain ⟨ihs, ihb⟩ := ih sh0 (pushBucket bs0 k el)
        constructor
        · rw [ihs, List.filter_cons]
          have hpred : sentToShell bs0 el = false := by
            simp [sentToShell, ho, hc.1, hc.2]
          rw [hpred]
          simp only [Bool.false_eq_true, if_false]
          congr 1
          apply List.filter_congr
          intro x hx
          unfold sentToShell
          cases hxo : x.mfeOwner with
          | none => rfl
          | some k' => simp only [pushBucket_any_key]
        · rw [ihb]
          unfold pushBucket
          rw [List.map_map]
          apply List.map_congr_left
          intro p hp
          by_cases hpk : p.1 = k
          · simp only [Function.comp_apply, if_pos hpk]
            rw [List.filter_cons]
            have hpr : (el.mfeOwner == some p.1 && p.1 != "") = true := by
              rw [hpk]
              simp [ho, hc.1]
            rw [hpr]
            simp [List.append_assoc]
          · simp only [Function.comp_apply, if_neg hpk]
            rw [List.filter_cons]
            have hpr : (el.mfeOwner == some p.1 && p.1 != "") = false := by
              simp [ho]
              intro hcc
              exact absurd hcc.symm hpk
            simp [hpr]
      · have hstep : groupStep (sh0, bs0) el = (sh0 ++ [el], bs0) := by
          simp only [groupStep, ho]
          rw [if_neg hc]
        rw [hstep]
        obtain ⟨ihs, ihb⟩ := ih (sh0 ++ [el]) bs0
        constructor
        · rw [ihs, List.append_assoc, List.filter_cons]
          have hpred : sentToShell bs0 el = true := by
            unfold sentToShell
            rw [ho]
            by_cases hk : k = ""
            · simp [hk]
            · have hany : bs0.any (fun p => p.1 == k) = false := by
                cases hb : bs0.any (fun p => p.1 == k) with
                | false => rfl
                | true => exact absurd ⟨hk, hb⟩ hc
              simp [hk, hany]
          simp [hpred]
        · rw [ihb]
          apply List.map_congr_left
          intro p hp
          rw [List.filter_cons]
          have hpr : (el.mfeOwner == some p.1 && p.1 != "") = false := by
            by_cases hpk : p.1 = k
            · subst hpk
              by_cases hk : p.1 = ""
              · simp [ho, hk]
              · have hany : bs0.any (fun q => q.1 == p.1) = false := by
                  cases hb : bs0.any (fun q => q.1 == p.1) with
                  | false => rfl
                  | true => exact absurd ⟨hk, hb⟩ hc
                have : p.1 ≠ p.1 := by
                  intro _
                  have : bs0.any (fun q => q.1 == p.1) = true :=
                    List.any_eq_true.mpr ⟨p, hp, by simp⟩
                  rw [hany] at this
                  exact Bool.noConfusion this
                exact absurd rfl this
            · simp [ho]
              intro hcc
              exact absurd hcc.symm hpk
          simp [hpr]

theorem beq_comm_str (a b : String) : (a == b) = (b == a) := by
  by_cases h : a = b
  · subst h
    rfl
  · have h1 : (a == b) = false := by simp [h]
    have h2 : (b == a) = false := by simp [Ne.symm h]
    rw [h1, h2]

theorem any_beq_contains (l : List String) (a : String) :
    (l.any fun x => x == a) = l.contains a := by
  induction l with
  | nil => rfl
  | cons b t ih =>
    rw [List.any_cons, ih, List.contains_cons, beq_comm_str]

theorem any_map' {α β : Type} (f : α → β) (l : List α) (p : β → Bool) :
    (l.map f).any p = l.any (fun a => p (f a)) := by
  induction l with
  | nil => rfl
  | cons x t ih => simp [ih]

theorem initBuckets_eq (ms : List MfeInfo) :
    initBuckets ms = (firstSeen (ms.map (fun m => m.name))).map
      (fun k => (k, ([] : List InteractiveElement))) := by
  have h : ∀ (ks : List String),
      ms.foldl (fun bs m => if bs.any (fun p => p.1 == m.name) then bs
          else bs ++ [(m.name, ([] : List InteractiveElement))])
        (ks.map (fun k => (k, ([] : List InteractiveElement)))) =
      ((ms.map (fun m => m.name)).foldl
        (fun acc d => if acc.contains d then acc else acc ++ [d]) ks).map
        (fun k => (k, ([] : List InteractiveElement))) := by
    induction ms with
    | nil => intro ks; rfl
    | cons m t ih =>
      intro ks
      simp only [List.foldl_cons, List.map_cons]
      have hcond : ((ks.map (fun k => (k, ([] : List InteractiveElement)))).any
          (fun p => p.1 == m.name)) = ks.contains m.name := by
        rw [any_map']
        show ks.any (fun a => a == m.name) = ks.contains m.name
        exact any_beq_contains ks m.name
      rw [hcond]
      by_cases hk : ks.contains m.name = true
      · rw [if_pos hk, if_pos hk]
        exact ih ks
      · rw [if_neg hk, if_neg hk]
        have hik := ih (ks ++ [m.name])
        rw [List.map_append] at hik
        simp only [List.map_cons, List.map_nil] at hik
        exact hik
  have h0 := h []
  simpa [initBuckets, firstSeen] using h0

theorem initBuckets_keys_nodup (ms : List MfeInfo) :
    ((initBuckets ms).map Prod.fst).Nodup := by
  rw [initBuckets_eq, List.map_map]
  have hid : (Prod.fst ∘ fun k : String => (k, ([] : List InteractiveElement))) = id := rfl
  rw [hid, List.map_id]
  exact firstSeen_nodup _

theorem initBuckets_any_key (ms : List MfeInfo) (k : String) :
    (initBuckets ms).any (fun p => p.1 == k) =
      (firstSeen (ms.map (fun m => m.name))).any (fun k' => k' == k) := by
  rw [initBuckets_eq, any_map']

theorem bucketsMS_init (ms : List MfeInfo) : bucketsMS (initBuckets ms) = 0 := by
  rw [initBuckets_eq]
  unfold bucketsMS
  rw [List.map_map]
  apply List.sum_eq_zero
  intro x hx
  rcases List.mem_map.mp hx with ⟨k, hk, hke⟩
  rw [← hke]
  rfl

/-- C3 (amended): extraction output is conserved — the multiset of elements
across the shell bucket and all MFE buckets is exactly the extracted
list — every name of the analysis appears as a bucket key, and each
element lands in its owner's bucket when the owner name is non-empty and
a known MFE, else in the shell bucket. -/
theorem mapInteractions_conservation (doc : List DomNode) (a : MfeAnalysis) :
    ((mapInteractions doc a).shell : Multiset InteractiveElement) +
        bucketsMS (mapInteractions doc a).mfes =
      (extractInteractiveElements doc a : Multiset InteractiveElement) ∧
    (∀ m ∈ a.mfes, ∃ b, (m.name, b) ∈ (mapInteractions doc a).mfes) ∧
    (mapInteractions doc a).shell =
      (extractInteractiveElements doc a).filter (fun el =>
        match el.mfeOwner with
        | some k => !(decide (k ≠ "") &&
            (firstSeen (a.mfes.map (fun m => m.name))).any (fun k' => k' == k))
        | none => true) ∧
    (mapInteractions doc a).mfes =
      (firstSeen (a.mfes.map (fun m => m.name))).map
        (fun k => (k, (extractInteractiveElements doc a).filter
          (fun el => el.mfeOwner == some k && k != ""))) := by
  obtain ⟨hs, hb⟩ := groupFold_spec (extractInteractiveElements doc a) [] (initBuckets a.mfes)
  have hshell : (mapInteractions doc a).shell =
      (extractInteractiveElements doc a).filter (sentToShell (initBuckets a.mfes)) := by
    have : (mapInteractions doc a).shell =
        ((extractInteractiveElements doc a).foldl groupStep ([], initBuckets a.mfes)).1 := rfl
    rw [this, hs]
    rfl
  have hmfes : (mapInteractions doc a).mfes =
      (initBuckets a.mfes).map (fun p => (p.1, p.2 ++
        (extractInteractiveElements doc a).filter
          (fun el => el.mfeOwner == some p.1 && p.1 != ""))) := by
    have : (mapInteractions doc a).mfes =
        ((extractInteractiveElements doc a).foldl groupStep ([], initBuckets a.mfes)).2 := rfl
    rw [this, hb]
  have hmfes' : (mapInteractions doc a).mfes =
      (firstSeen (a.mfes.map (fun m => m.name))).map
        (fun k => (k, (extractInteractiveElements doc a).filter
          (fun el => el.mfeOwner == some k && k != ""))) := by
    rw [hmfes, initBuckets_eq, List.map_map]
    apply List.map_congr_left
    intro k hk
    rfl
  refine ⟨?_, ?_, ?_, hmfes'⟩
  · have hms := groupFold_ms (extractInteractiveElements doc a) [] (initBuckets a.mfes)
      (initBuckets_keys_nodup a.mfes)
    have h1 : ((mapInteractions doc a).shell : Multiset InteractiveElement) +
        bucketsMS (mapInteractions doc a).mfes =
        (((extractInteractiveElements doc a).foldl groupStep
            ([], initBuckets a.mfes)).1 : Multiset InteractiveElement) +
          bucketsMS ((extractInteractiveElements doc a).foldl groupStep
            ([], initBuckets a.mfes)).2 := rfl
    rw [h1, hms, bucketsMS_init]
    simp
  · intro m hm
    refine ⟨(extractInteractiveElements doc a).filter
      (fun el => el.mfeOwner == some m.name && m.name != ""), ?_⟩
    rw [hmfes']
    apply List.mem_map.mpr
    refine ⟨m.name, ?_, rfl⟩
    rw [mem_firstSeen]
    exact List.mem_map.mpr ⟨m, hm, rfl⟩
  · rw [hshell]
    apply List.filter_congr
    intro x hx
    unfold sentToShell
    cases hxo : x.mfeOwner with
    | none => rfl
    | some k => simp only [initBuckets_any_key]

/-- C3 counterexample: with an MFE literally named the empty string, an
element whose inferred owner is that known name is still sent to the shell
bucket (the source's truthiness test `element.mfeOwner && ...` treats the
empty owner string as falsy), so the claim's placement rule fails. -/
theorem mapInteractions_claim_counterexample :
    ¬ ((mapInteractions [DomNode.elem "button" [("data-mfe", "x")] []]
          ⟨"s", [⟨"", []⟩]⟩).shell =
        (extractInteractiveElements [DomNode.elem "button" [("data-mfe", "x")] []]
          ⟨"s", [⟨"", []⟩]⟩).filter (fun el =>
            match el.mfeOwner with
            | some k =>
              !(((⟨"s", [⟨"", []⟩]⟩ : MfeAnalysis).mfes.map (fun m => m.name)).any
                  (fun k' => k' == k))
            | none => true)) := by
  decide

theorem mapInteractions_conservation_witness :
    ∃ b, ("mfe-3001", b) ∈
      (mapInteractions [] ⟨"http://localhost:3000", [⟨"mfe-3001", []⟩]⟩).mfes :=
  (mapInteractions_conservation [] ⟨"http://localhost:3000", [⟨"mfe-3001", []⟩]⟩).2.1
    ⟨"mfe-3001", []⟩ (by decide)

/-! ## The shared visited set across extraction passes (claim C10) -/

theorem contains_mem_nat {l : List Nat} {v : Nat} : l.contains v = true ↔ v ∈ l := by
  simp [List.contains, List.elem_eq_mem]

theorem passFold_visited_mono (a : MfeAnalysis) (c : String → Bool)
    (l : List (Nat × ElemCtx)) :
    ∀ (st : List Nat × List (Nat × InteractiveElement)) (v : Nat), v ∈ st.1 →
      v ∈ (l.foldl (passStep a c) st).1 := by
  induction l with
  | nil => intro st v h; exact h
  | cons p t ih =>
    intro st v h
    simp only [List.foldl_cons]
    apply ih
    unfold passStep
    by_cases hc : st.1.contains p.1 = true
    · rw [if_pos hc]; exact h
    · rw [if_neg hc]
      by_cases hcat : c (getRole p.2) = true
      · rw [if_pos hcat]; exact List.mem_append.mpr (Or.inl h)
      · rw [if_neg hcat]; exact List.mem_append.mpr (Or.inl h)

theorem passFold_visits (a : MfeAnalysis) (c : String → Bool) (l : List (Nat × ElemCtx)) :
    ∀ (st : List Nat × List (Nat × InteractiveElement)) (i : Nat) (e : ElemCtx),
      (i, e) ∈ l → i ∈ (l.foldl (passStep a c) st).1 := by
  induction l with
  | nil => intro st i e h; cases h
  | cons p t ih =>
    intro st i e h
    simp only [List.foldl_cons]
    rcases List.mem_cons.mp h with heq | hmem
    · have hi : i = p.1 := by rw [← heq]
      apply passFold_visited_mono
      unfold passStep
      by_cases hc : st.1.contains p.1 = true
      · rw [if_pos hc]
        exact hi ▸ contains_mem_nat.mp hc
      · rw [if_neg hc]
        by_cases hcat : c (getRole p.2) = true
        · rw [if_pos hcat]
          exact List.mem_append.mpr (Or.inr (by simp [hi]))
        · rw [if_neg hcat]
          exact List.mem_append.mpr (Or.inr (by simp [hi]))
    · exact ih _ i e hmem

theorem passFold_no_new_out (a : MfeAnalysis) (c : String → Bool)
    (l : List (Nat × ElemCtx)) :
    ∀ (st : List Nat × List (Nat × InteractiveElement)) (i : Nat),
      i ∈ st.1 → i ∉ st.2.map Prod.fst →
      i ∈ (l.foldl (passStep a c) st).1 ∧
        i ∉ ((l.foldl (passStep a c) st).2).map Prod.fst := by
  induction l with
  | nil => intro st i h1 h2; exact ⟨h1, h2⟩
  | cons p t ih =>
    intro st i h1 h2
    simp only [List.foldl_cons]
    by_cases hc : st.1.contains p.1 = true
    · unfold passStep
      rw [if_pos hc]
      exact ih st i h1 h2
    · have hpi : p.1 ≠ i := by
        intro he
        exact hc (contains_mem_nat.mpr (he ▸ h1))
      unfold passStep
      rw [if_neg hc]
      by_cases hcat : c (getRole p.2) = true
      · rw [if_pos hcat]
        apply ih
        · exact List.mem_append.mpr (Or.inl h1)
        · rw [List.map_append]
          intro hmem
          rcases List.mem_append.mp hmem with h | h
          · exact h2 h
          · simp at h
            exact hpi h.symm
      · rw [if_neg hcat]
        exact ih _ i (List.mem_append.mpr (Or.inl h1)) h2

theorem passFold_bad_not_out (a : MfeAnalysis) (c : String → Bool)
    (l : List (Nat × ElemCtx)) :
    ∀ (st : List Nat × List (Nat × InteractiveElement)) (i : Nat),
      i ∉ st.2.map Prod.fst →
      (∀ e : ElemCtx, (i, e) ∈ l → c (getRole e) = false) →
      i ∉ ((l.foldl (passStep a c) st).2).map Prod.fst := by
  induction l with
  | nil => intro st i h1 _; exact h1
  | cons p t ih =>
    intro st i h1 hbad
    simp only [List.foldl_cons]
    by_cases hc : st.1.contains p.1 = true
    · unfold passStep
      rw [if_pos hc]
      exact ih st i h1 (fun e he => hbad e (List.mem_cons_of_mem _ he))
    · unfold passStep
      rw [if_neg hc]
      by_cases hcat : c (getRole p.2) = true
      · rw [if_pos hcat]
        apply ih
        · rw [List.map_append]
          intro hmem
          rcases List.mem_append.mp hmem with h | h
          · exact h1 h
          · simp at h
            have hmema : (i, p.2) ∈ p :: t := by
              rw [h, Prod.mk.eta]
              exact List.mem_cons_self _ _
            have hcf := hbad p.2 hmema
            rw [hcat] at hcf
            exact Bool.noConfusion hcf
        · exact fun e he => hbad e (List.mem_cons_of_mem _ he)
      · rw [if_neg hcat]
        exact ih _ i h1 (fun e he => hbad e (List.mem_cons_of_mem _ he))

theorem enum_snd_unique {l : List ElemCtx} {i : Nat} {e e' : ElemCtx}
    (h : (i, e) ∈ l.enum) (h' : (i, e') ∈ l.enum) : e' = e := by
  rw [List.mk_mem_enum_iff_getElem?] at h h'
  rw [h] at h'
  exact ((Option.some.injEq _ _).mp h'.symm)

theorem initBuckets_snd_nil (ms : List MfeInfo) : ∀ p ∈ initBuckets ms, p.2 = [] := by
  intro p hp
  rw [initBuckets_eq] at hp
  rcases List.mem_map.mp hp with ⟨k, hk, hke⟩
  rw [← hke]

/-- Every element held in any bucket of the interaction map is one of the
extracted records. -/
theorem mapInteractions_elements_sub (doc : List DomNode) (a : MfeAnalysis) :
    ∀ el ∈ (mapInteractions doc a).shell ++
        ((mapInteractions doc a).mfes.map Prod.snd).flatten,
      el ∈ extractInteractiveElements doc a := by
  intro el hmem
  obtain ⟨hs, hb⟩ := groupFold_spec (extractInteractiveElements doc a) [] (initBuckets a.mfes)
  rcases List.mem_append.mp hmem with h | h
  · have hshell : (mapInteractions doc a).shell =
        (extractInteractiveElements doc a).filter (sentToShell (initBuckets a.mfes)) := by
      have h0 : (mapInteractions doc a).shell =
          ((extractInteractiveElements doc a).foldl groupStep ([], initBuckets a.mfes)).1 := rfl
      rw [h0, hs]
      rfl
    rw [hshell] at h
    exact (List.mem_filter.mp h).1
  · have hmfes : (mapInteractions doc a).mfes =
        (initBuckets a.mfes).map (fun p => (p.1, p.2 ++
          (extractInteractiveElements doc a).filter
            (fun el => el.mfeOwner == some p.1 && p.1 != ""))) := by
      have h0 : (mapInteractions doc a).mfes =
          ((extractInteractiveElements doc a).foldl groupStep ([], initBuckets a.mfes)).2 := rfl
      rw [h0, hb]
    rw [hmfes, List.map_map] at h
    rcases List.mem_flatten.mp h with ⟨b, hbmem, helb⟩
    rcases List.mem_map.mp hbmem with ⟨p0, hp0, hp0e⟩
    have hnil : p0.2 = [] := initBuckets_snd_nil a.mfes p0 hp0
    rw [← hp0e] at helb
    simp only [Function.comp_apply, hnil, List.nil_append] at helb
    exact (List.mem_filter.mp helb).1

/-- C10: an element matched by an earlier pass's query is added to the
visited set before its role-category check, so an element whose explicit
role moves it to a later pass's category is skipped by the earlier pass,
ignored by every later pass, and never extracted — its document-order
index never appears among the extracted pairs — while every element of any
bucket of the resulting map is an extracted record. -/
theorem extraction_skips_role_moved_elements (doc : List DomNode) (a : MfeAnalysis)
    (i : Nat) (e : ElemCtx) (hmem : (i, e) ∈ (allElems doc).enum)
    (hcase : (matchesButtonsQuery e = true ∧ getRole e ≠ "button") ∨
      (matchesButtonsQuery e = false ∧ matchesLinksQuery e = true ∧ getRole e ≠ "link")) :
    i ∉ (extractPairs doc a).map Prod.fst ∧
    ∀ el ∈ (mapInteractions doc a).shell ++
        ((mapInteractions doc a).mfes.map Prod.snd).flatten,
      el ∈ extractInteractiveElements doc a := by
  refine ⟨?_, mapInteractions_elements_sub doc a⟩
  have huniq : ∀ e', (i, e') ∈ (allElems doc).enum → e' = e :=
    fun e' h' => enum_snd_unique hmem h'
  unfold extractPairs extractPass
  rcases hcase with ⟨hbq, hrole⟩ | ⟨hbq, hlq, hrole⟩
  · have hbad1 : ∀ e' : ElemCtx, (i, e') ∈ ((allElems doc).enum.filter
        (fun p => matchesButtonsQuery p.2)) → isButtonCat (getRole e') = false := by
      intro e' h'
      have he' := huniq e' (List.mem_filter.mp h').1
      rw [he']
      simp [isButtonCat, hrole]
    have hout1 := passFold_bad_not_out a isButtonCat
      ((allElems doc).enum.filter (fun p => matchesButtonsQuery p.2)) ([], []) i
      (by simp) hbad1
    have hvis1 := passFold_visits a isButtonCat
      ((allElems doc).enum.filter (fun p => matchesButtonsQuery p.2)) ([], []) i e
      (List.mem_filter.mpr ⟨hmem, hbq⟩)
    have h2 := passFold_no_new_out a isLinkCat
      ((allElems doc).enum.filter (fun p => matchesLinksQuery p.2)) _ i hvis1 hout1
    have h3 := passFold_no_new_out a isInputCat
      ((allElems doc).enum.filter (fun p => matchesInputsQuery p.2)) _ i h2.1 h2.2
    exact h3.2
  · have hbad1 : ∀ e' : ElemCtx, (i, e') ∈ ((allElems doc).enum.filter
        (fun p => matchesButtonsQuery p.2)) → isButtonCat (getRole e') = false := by
      intro e' h'
      obtain ⟨hL, hq⟩ := List.mem_filter.mp h'
      have he' := huniq e' hL
      rw [he', hbq] at hq
      exact Bool.noConfusion hq
    have hout1 := passFold_bad_not_out a isButtonCat
      ((allElems doc).enum.filter (fun p => matchesButtonsQuery p.2)) ([], []) i
      (by simp) hbad1
    have hbad2 : ∀ e' : ElemCtx, (i, e') ∈ ((allElems doc).enum.filter
        (fun p => matchesLinksQuery p.2)) → isLinkCat (getRole e') = false := by
      intro e' h'
      have he' := huniq e' (List.mem_filter.mp h').1
      rw [he']
      simp [isLinkCat, hrole]
    have hout2 := passFold_bad_not_out a isLinkCat
      ((allElems doc).enum.filter (fun p => matchesLinksQuery p.2)) _ i hout1 hbad2
    have hvis2 := passFold_visits a isLinkCat
      ((allElems doc).enum.filter (fun p => matchesLinksQuery p.2))
      (((allElems doc).enum.filter (fun p => matchesButtonsQuery p.2)).foldl
        (passStep a isButtonCat) ([], [])) i e
      (List.mem_filter.mpr ⟨hmem, hlq⟩)
    have h3 := passFold_no_new_out a isInputCat
      ((allElems doc).enum.filter (fun p => matchesInputsQuery p.2)) _ i hvis2 hout2
    exact h3.2

theorem extraction_skips_role_moved_elements_witness :
    0 ∉ (extractPairs [DomNode.elem "button" [("role", "textbox")] []]
        ⟨"s", []⟩).map Prod.fst :=
  (extraction_skips_role_moved_elements [DomNode.elem "button" [("role", "textbox")] []]
    ⟨"s", []⟩ 0 ⟨"button", [("role", "textbox")], [], []⟩
    (List.Mem.head _) (Or.inl ⟨by decide, by decide⟩)).1
